import Mathlib

/-!
# Engram Trace Lite — consolidation engine, shallow embedding

A shallow embedding of the stateless memory-consolidation pipeline
(`consolidator.ts`) of `@terronex/engram-trace-lite`, together with proofs
of the specified properties.

Modelling conventions:
* JavaScript numbers are modelled as exact rationals (`ℚ`); timestamps
  (`Date.now()`, `new Date(s).getTime()`) are epoch-millisecond rationals
  passed in explicitly as `now` parameters (the only impurity of the source).
* The floating-point square root used by `cosineSimilarity` is opaque to the
  program logic; it is modelled as an explicit parameter `sqrt : ℚ → ℚ`.
  Properties that need a fact about it (such as `sqrt 0 = 0`) take that fact
  as a hypothesis.
* `Float32Array` embeddings are `List ℚ`.
* A `Summarizer` (`summarize(texts): Promise<string>`, which may reject) is
  `List String → Option String`; `none` models a rejection/raise.
* JS `Set` of indices is `Finset ℕ`; the metadata object is an association
  list with JS spread (last-write-wins, in-place update of existing keys)
  semantics.
-/

-- Rational arithmetic primitives are elaborator-irreducible by default,
-- which blocks `decide` on concrete pipeline runs; restore reducibility so
-- concrete instantiations evaluate.
set_option allowUnsafeReducibility true
attribute [semireducible] Rat.ofScientific Rat.add Rat.mul Rat.sub Rat.div
  Rat.blt Rat.normalize Rat.inv

namespace EngramTraceLite

/-- Storage tiers, ordered `hot < warm < cold < archive`. -/
inductive MemoryTier where
  | hot
  | warm
  | cold
  | archive
  deriving DecidableEq, Repr, Inhabited

/-- Position of a tier in the order `hot < warm < cold < archive`. -/
def tierIdx : MemoryTier → ℕ
  | .hot => 0
  | .warm => 1
  | .cold => 2
  | .archive => 3

/-- A metadata value (`Record<string, unknown>` entries actually used by the
program: booleans, numbers, strings). -/
inductive MetaValue where
  | bool (b : Bool)
  | num (q : ℚ)
  | str (s : String)
  deriving DecidableEq, Repr, Inhabited

/-- Metadata maps are association lists over string keys. -/
abbrev Metadata := List (String × MetaValue)

/-- JS spread `{ ...md, k: v }`: replace the value of an existing key in
place, otherwise append the new key at the end. -/
def setMeta (md : Metadata) (k : String) (v : MetaValue) : Metadata :=
  if md.any (fun p => p.1 = k) then
    md.map (fun p => if p.1 = k then (k, v) else p)
  else
    md ++ [(k, v)]

/-- Lookup of a metadata key. -/
def getMeta (md : Metadata) (k : String) : Option MetaValue :=
  (md.find? (fun p => p.1 = k)).map Prod.snd

/-- A single memory entry (`Memory` in `types.ts`). `createdAt` and
`lastAccessed` are epoch-millisecond timestamps (the source stores ISO
strings and converts with `new Date(s).getTime()`). -/
structure Memory where
  id : String
  content : String
  embedding : List ℚ
  tags : List String
  importance : ℚ
  tier : MemoryTier
  createdAt : ℚ
  lastAccessed : ℚ
  accessCount : ℕ
  source : Option String := none
  metadata : Metadata := []
  deriving DecidableEq, Repr, Inhabited

/-- Consolidation configuration with all defaults filled in
(`Required<ConsolidateConfig>` after `{ ...DEFAULTS, ...config }`). -/
structure Config where
  deduplicateThreshold : ℚ
  clusterThreshold : ℚ
  minClusterSize : ℚ
  hotDays : ℚ
  warmDays : ℚ
  coldDays : ℚ
  archiveTruncateLength : ℤ
  deriving DecidableEq, Repr

/-- The `DEFAULTS` constant of the source. -/
def DEFAULTS : Config :=
  { deduplicateThreshold := 0.92
    clusterThreshold := 0.78
    minClusterSize := 3
    hotDays := 7
    warmDays := 30
    coldDays := 365
    archiveTruncateLength := 200 }

/-- Optional LLM capability: `summarize(texts)` asynchronously produces a
string or rejects (`none`). -/
abbrev Summarizer := List String → Option String

-- -- Math ---------------------------------------------------------------------

/-- `cosineSimilarity(a, b)`: dot product over the product of norms, with the
square root `sqrt` passed explicitly. Returns 0 on length mismatch, empty
input, or zero denominator. -/
def cosineSimilarity (sqrt : ℚ → ℚ) (a b : List ℚ) : ℚ :=
  if a.length ≠ b.length ∨ a.length = 0 then 0
  else
    let dot := (List.zipWith (· * ·) a b).sum
    let normA := (a.map (fun x => x * x)).sum
    let normB := (b.map (fun x => x * x)).sum
    let denom := sqrt normA * sqrt normB
    if denom = 0 then 0 else dot / denom

-- -- Decay --------------------------------------------------------------------

/-- The per-record body of the `decay` map: compute the effective age and
advance the tier by at most one step. `now` is `Date.now()` in ms. -/
def decayMem (now hotDays warmDays coldDays : ℚ) (m : Memory) : Memory :=
  let ageMs := now - m.createdAt
  let ageDays := ageMs / 86400000
  let accessBoost := min ((m.accessCount : ℚ) * 0.5) 5
  let importanceMultiplier := 1 + m.importance * 2
  let effectiveAge := (ageDays - accessBoost) / importanceMultiplier
  let newTier : MemoryTier :=
    if m.tier = .hot ∧ effectiveAge > hotDays then .warm
    else if m.tier = .warm ∧ effectiveAge > warmDays then .cold
    else if m.tier = .cold ∧ effectiveAge > coldDays then .archive
    else m.tier
  if newTier ≠ m.tier then { m with tier := newTier } else m

/-- `decay(memories, config)`: map `decayMem` over the collection and count
the records whose tier changed. -/
def decay (now hotDays warmDays coldDays : ℚ) (memories : List Memory) :
    List Memory × ℕ :=
  let f := decayMem now hotDays warmDays coldDays
  (memories.map f, memories.countP (fun m => (f m).tier ≠ m.tier))

-- -- Index-based filtering ----------------------------------------------------

/-- `l.filter((_, i) => !s.has(i))`: keep the elements whose position is not
in the removal set `s`. -/
def filterIdx {α : Type} (l : List α) (s : Finset ℕ) : List α :=
  (l.enum.filter (fun p => p.1 ∉ s)).map Prod.snd

-- -- Deduplicate --------------------------------------------------------------

/-- `score = importance + accessCount*0.1`, the tie-break score shared by
`deduplicate` and `summarizeClusters`. -/
def memScore (m : Memory) : ℚ := m.importance + (m.accessCount : ℚ) * 0.1

/-- Inner loop of `deduplicate` for a fixed outer index `i` with record `mi`:
scan indices `js` (those `j > i`), marking duplicates; a `break` (when `i`
itself loses) stops the scan immediately after inserting `i`. -/
def dedupInner (sqrt : ℚ → ℚ) (threshold : ℚ) (memories : List Memory)
    (mi : Memory) (i : ℕ) : List ℕ → Finset ℕ → Finset ℕ
  | [], remove => remove
  | j :: js, remove =>
    if j ∈ remove then dedupInner sqrt threshold memories mi i js remove
    else
      let mj := memories.getD j default
      if cosineSimilarity sqrt mi.embedding mj.embedding > threshold then
        if memScore mi ≥ memScore mj then
          dedupInner sqrt threshold memories mi i js (insert j remove)
        else
          insert i remove
      else dedupInner sqrt threshold memories mi i js remove

/-- Outer loop of `deduplicate`: iterate over all indices, skipping those
already marked removed. -/
def dedupOuter (sqrt : ℚ → ℚ) (threshold : ℚ) (memories : List Memory) :
    List ℕ → Finset ℕ → Finset ℕ
  | [], remove => remove
  | i :: is, remove =>
    if i ∈ remove then dedupOuter sqrt threshold memories is remove
    else
      dedupOuter sqrt threshold memories is
        (dedupInner sqrt threshold memories (memories.getD i default) i
          ((List.range memories.length).drop (i + 1)) remove)

/-- `deduplicate(memories, threshold)`: greedy pairwise near-duplicate
removal, keeping the higher-scored record of each detected pair. -/
def deduplicate (sqrt : ℚ → ℚ) (threshold : ℚ) (memories : List Memory) :
    List Memory × ℕ :=
  if memories.length < 2 then (memories, 0)
  else
    let remove :=
      dedupOuter sqrt threshold memories (List.range memories.length) ∅
    (filterIdx memories remove, remove.card)

-- -- Cluster ------------------------------------------------------------------

/-- `c.m.tier === 'warm' || c.m.tier === 'cold'`. -/
def warmOrCold (m : Memory) : Bool := m.tier = .warm || m.tier = .cold

/-- Inner scan of `cluster` for a fixed seed: add every unassigned candidate
whose similarity to the seed reaches the threshold to the group. -/
def clusterScan (sqrt : ℚ → ℚ) (threshold : ℚ) (seed : Memory) :
    List (ℕ × Memory) → Finset ℕ → List ℕ → Finset ℕ × List ℕ
  | [], assigned, group => (assigned, group)
  | (oi, om) :: rest, assigned, group =>
    if oi ∈ assigned then clusterScan sqrt threshold seed rest assigned group
    else if cosineSimilarity sqrt seed.embedding om.embedding ≥ threshold then
      clusterScan sqrt threshold seed rest (insert oi assigned) (group ++ [oi])
    else clusterScan sqrt threshold seed rest assigned group

/-- Outer loop of `cluster`: each unassigned candidate in turn seeds a group;
groups below `minClusterSize` are dissolved (their members released). -/
def clusterOuter (sqrt : ℚ → ℚ) (threshold minClusterSize : ℚ)
    (cands : List (ℕ × Memory)) :
    List (ℕ × Memory) → Finset ℕ → List (List ℕ) → List (List ℕ)
  | [], _, clusters => clusters
  | (si, sm) :: rest, assigned, clusters =>
    if si ∈ assigned then
      clusterOuter sqrt threshold minClusterSize cands rest assigned clusters
    else
      let p := clusterScan sqrt threshold sm cands (insert si assigned) [si]
      if (p.2.length : ℚ) ≥ minClusterSize then
        clusterOuter sqrt threshold minClusterSize cands rest p.1
          (clusters ++ [p.2])
      else
        clusterOuter sqrt threshold minClusterSize cands rest
          (p.1 \ p.2.toFinset) clusters

/-- `cluster(memories, config)`: group similar warm/cold memories, returning
lists of indices into `memories`. -/
def cluster (sqrt : ℚ → ℚ) (threshold minClusterSize : ℚ)
    (memories : List Memory) : List (List ℕ) :=
  let cands := memories.enum.filter (fun p => warmOrCold p.2)
  if (cands.length : ℚ) < minClusterSize then []
  else clusterOuter sqrt threshold minClusterSize cands cands ∅ []

-- -- Forget -------------------------------------------------------------------

/-- `forget(memories, queryEmbedding, threshold)`: keep the records whose
similarity to the query is strictly below the threshold. -/
def forget (sqrt : ℚ → ℚ) (memories : List Memory) (queryEmbedding : List ℚ)
    (threshold : ℚ) : List Memory × ℕ :=
  let survivors := memories.filter
    (fun m => cosineSimilarity sqrt m.embedding queryEmbedding < threshold)
  (survivors, memories.length - survivors.length)

-- -- Summarize clusters -------------------------------------------------------

/-- `[...new Set(l)]`: deduplicate a list keeping the first occurrence of
each element, preserving insertion order. -/
def dedupFirst : List String → List String
  | [] => []
  | a :: l => a :: dedupFirst (l.filter (fun x => x ≠ a))
termination_by l => l.length
decreasing_by
  simp only [List.length_cons]
  exact Nat.lt_succ_of_le (List.length_filter_le _ _)

/-- `group.reduce(...)`: the first cluster member attaining the maximal
`memScore` (ties keep the earlier accumulator). -/
def bestOf (memories : List Memory) (g0 : ℕ) (rest : List ℕ) : ℕ :=
  rest.foldl
    (fun a b =>
      if memScore (memories.getD a default) ≥ memScore (memories.getD b default)
      then a else b) g0

/-- `Math.max(...group.map(i => memories[i].importance))` for a nonempty
group `g0 :: rest`. -/
def maxImpOver (memories : List Memory) (g0 : ℕ) (rest : List ℕ) : ℚ :=
  rest.foldl (fun acc i => max acc (memories.getD i default).importance)
    (memories.getD g0 default).importance

/-- The update applied to the representative record of a merged cluster. -/
def mergeUpdate (r : Memory) (summary : String) (maxImp : ℚ)
    (groupSize : ℕ) (nowISO : String) : Memory :=
  { r with
    content := summary
    tags := dedupFirst (r.tags ++ ["consolidated"])
    importance := maxImp
    metadata :=
      setMeta (setMeta r.metadata "consolidatedFrom" (.num groupSize))
        "consolidatedAt" (.str nowISO) }

/-- The fold state of `summarizeClusters`. -/
structure SumState where
  result : List Memory
  toRemove : Finset ℕ
  merged : ℕ
  deriving DecidableEq

/-- One iteration of the `summarizeClusters` loop over a cluster. A `none`
summarizer result models a rejection (caught, non-fatal); an out-of-range
index or empty group models the thrown-and-caught path of the source. -/
def sumStep (memories : List Memory) (summarizer : Summarizer)
    (nowISO : String) (st : SumState) (group : List ℕ) : SumState :=
  match group.mapM (fun i => (memories.get? i).map Memory.content) with
  | none => st
  | some texts =>
    match summarizer texts with
    | none => st
    | some summary =>
      if summary.length < 10 then st
      else
        match group with
        | [] => st
        | g0 :: rest =>
          let best := bestOf memories g0 rest
          let toRemove := st.toRemove ∪ (group.filter (fun i => i ≠ best)).toFinset
          let result :=
            match st.result.findIdx? (fun m => m.id = (memories.getD best default).id) with
            | none => st.result
            | some k =>
              st.result.set k
                (mergeUpdate (st.result.getD k default) summary
                  (maxImpOver memories g0 rest) group.length nowISO)
          { result := result, toRemove := toRemove,
            merged := st.merged + (group.length - 1) }

/-- `summarizeClusters(memories, clusters, summarizer)`: merge each cluster
into its representative; failures skip the cluster. -/
def summarizeClusters (memories : List Memory) (clusters : List (List ℕ))
    (summarizer : Summarizer) (nowISO : String) : List Memory × ℕ :=
  let st := clusters.foldl (sumStep memories summarizer nowISO)
    ⟨memories, ∅, 0⟩
  (filterIdx st.result st.toRemove, st.merged)

/-- The contribution of one cluster to the merged counter of
`summarizeClusters`: 0 on any skip path, `group.length - 1` on a merge. -/
def mergeContrib (memories : List Memory) (summarizer : Summarizer)
    (group : List ℕ) : ℕ :=
  match group.mapM (fun i => (memories.get? i).map Memory.content) with
  | none => 0
  | some texts =>
    match summarizer texts with
    | none => 0
    | some summary =>
      if summary.length < 10 then 0
      else
        match group with
        | [] => 0
        | _ :: _ => group.length - 1

-- -- Archive ------------------------------------------------------------------

/-- The truncation condition of the `archive` phase. -/
def archiveCond (truncateLength : ℤ) (m : Memory) : Prop :=
  m.tier = .archive ∧ (m.content.length : ℤ) > truncateLength ∧
    "consolidated" ∉ m.tags

instance (truncateLength : ℤ) (m : Memory) :
    Decidable (archiveCond truncateLength m) := by
  unfold archiveCond; infer_instance

/-- The per-record body of the `archive` map. -/
def archiveMem (truncateLength : ℤ) (m : Memory) : Memory :=
  if archiveCond truncateLength m then
    { m with
      content := m.content.take truncateLength.toNat ++ "..."
      metadata :=
        setMeta (setMeta m.metadata "truncated" (.bool true)) "originalLength"
          (.num m.content.length) }
  else m

/-- `archive(memories, truncateLength)`: truncate oversized archive-tier
content; `truncateLength <= 0` disables the phase. -/
def archive (truncateLength : ℤ) (memories : List Memory) :
    List Memory × ℕ :=
  if truncateLength ≤ 0 then (memories, 0)
  else
    (memories.map (archiveMem truncateLength),
      memories.countP (fun m => archiveCond truncateLength m))

-- -- Orchestrator -------------------------------------------------------------

/-- Tier-count snapshot (`Record<MemoryTier, number>`). -/
structure TierCounts where
  hot : ℕ
  warm : ℕ
  cold : ℕ
  archive : ℕ
  deriving DecidableEq, Repr

/-- `countByTier(memories)`. -/
def countByTier (memories : List Memory) : TierCounts :=
  { hot := memories.countP (fun m => m.tier = .hot)
    warm := memories.countP (fun m => m.tier = .warm)
    cold := memories.countP (fun m => m.tier = .cold)
    archive := memories.countP (fun m => m.tier = .archive) }

/-- `ConsolidationReport`. -/
structure Report where
  timestamp : String
  durationMs : ℚ
  beforeTotal : ℕ
  beforeByTier : TierCounts
  afterTotal : ℕ
  afterByTier : TierCounts
  decayed : ℕ
  deduplicated : ℕ
  clustersFound : ℕ
  summarized : ℕ
  archived : ℕ

/-- `consolidate(memories, config, summarizer)`: the full pipeline.
`now`/`endNow` model the two `Date.now()` calls and `endISO` the ISO
timestamps taken during the run. -/
def consolidate (sqrt : ℚ → ℚ) (now endNow : ℚ) (endISO : String)
    (memories : List Memory) (cfg : Config)
    (summarizer : Option Summarizer) : List Memory × Report :=
  let before := countByTier memories
  let d := decay now cfg.hotDays cfg.warmDays cfg.coldDays memories
  let dd := deduplicate sqrt cfg.deduplicateThreshold d.1
  let step3 :=
    match summarizer with
    | none => (dd.1, 0, 0)
    | some s =>
      let cs := cluster sqrt cfg.clusterThreshold cfg.minClusterSize dd.1
      if cs.length > 0 then
        let r := summarizeClusters dd.1 cs s endISO
        (r.1, cs.length, r.2)
      else (dd.1, cs.length, 0)
  let a := archive cfg.archiveTruncateLength step3.1
  (a.1,
    { timestamp := endISO
      durationMs := endNow - now
      beforeTotal := memories.length
      beforeByTier := before
      afterTotal := a.1.length
      afterByTier := countByTier a.1
      decayed := d.2
      deduplicated := dd.2
      clustersFound := step3.2.1
      summarized := step3.2.2
      archived := a.2 })

-- -- Concrete fixture ---------------------------------------------------------

/-- A concrete record used to instantiate theorems on explicit inputs. -/
def demoMem (id : String) (tier : MemoryTier) (embedding : List ℚ) : Memory :=
  { id := id
    content := "a demo memory content string"
    embedding := embedding
    tags := []
    importance := 0
    tier := tier
    createdAt := 0
    lastAccessed := 0
    accessCount := 0 }

/-- A concrete three-record collection used to instantiate theorems. -/
def demoMems3 : List Memory :=
  [demoMem "a" .warm [1], demoMem "b" .warm [1], demoMem "c" .warm [1]]

-- -- Helper lemmas ------------------------------------------------------------

lemma countP_not_add {α : Type} (p : α → Bool) (l : List α) :
    l.countP p + l.countP (fun a => !(p a)) = l.length := by
  induction l with
  | nil => simp
  | cons a l ih =>
    by_cases h : p a <;> simp [List.countP_cons, h] <;> omega

lemma range_toFinset (n : ℕ) : (List.range n).toFinset = Finset.range n := by
  ext x
  simp [List.mem_toFinset, List.mem_range, Finset.mem_range]

lemma countP_mem_range (s : Finset ℕ) (n : ℕ) (h : ∀ x ∈ s, x < n) :
    (List.range n).countP (fun i => i ∈ s) = s.card := by
  rw [List.countP_eq_length_filter,
    ← List.toFinset_card_of_nodup (List.Nodup.filter _ (List.nodup_range n)),
    List.toFinset_filter, range_toFinset]
  congr 1
  ext x
  simp only [Finset.mem_filter, Finset.mem_range, decide_eq_true_eq]
  constructor
  · rintro ⟨_, hx⟩
    exact hx
  · intro hx
    exact ⟨h x hx, hx⟩

lemma filterIdx_sublist {α : Type} (l : List α) (s : Finset ℕ) :
    (filterIdx l s).Sublist l := by
  have h1 : (l.enum.filter (fun p => p.1 ∉ s)).Sublist l.enum :=
    List.filter_sublist _
  have h2 := List.Sublist.map Prod.snd h1
  rwa [List.enum_map_snd] at h2

lemma filterIdx_length {α : Type} (l : List α) (s : Finset ℕ)
    (h : ∀ x ∈ s, x < l.length) :
    (filterIdx l s).length + s.card = l.length := by
  have key : (filterIdx l s).length =
      (List.range l.length).countP (fun i => i ∉ s) := by
    unfold filterIdx
    rw [List.length_map, ← List.countP_eq_length_filter]
    have hfst := List.countP_map (fun i : ℕ => decide (i ∉ s)) Prod.fst l.enum
    rw [List.enum_map_fst] at hfst
    rw [hfst]
    rfl
  have hsplit := countP_not_add (fun i : ℕ => decide (i ∈ s))
    (List.range l.length)
  have hmem := countP_mem_range s l.length h
  have hnot : (List.range l.length).countP (fun i => i ∉ s) =
      (List.range l.length).countP (fun i => !(decide (i ∈ s))) := by
    congr 1
    funext i
    simp [decide_not]
  rw [List.length_range] at hsplit
  rw [key, hnot]
  omega

lemma setMeta_cons_ne (k1 : String) (v1 : MetaValue) (md : Metadata)
    (k : String) (v : MetaValue) (h : k1 ≠ k) :
    setMeta ((k1, v1) :: md) k v = (k1, v1) :: setMeta md k v := by
  unfold setMeta
  by_cases hmd : md.any (fun p => p.1 = k)
  · simp [List.any_cons, hmd, h]
  · simp [List.any_cons, hmd, h]

lemma getMeta_cons_ne (k1 : String) (v1 : MetaValue) (md : Metadata)
    (k : String) (h : k1 ≠ k) :
    getMeta ((k1, v1) :: md) k = getMeta md k := by
  simp [getMeta, List.find?_cons, h]

lemma getMeta_map_overwrite (md : Metadata) (k k' : String) (v : MetaValue)
    (h : k' ≠ k) :
    getMeta (md.map (fun p => if p.1 = k then (k, v) else p)) k' =
      getMeta md k' := by
  induction md with
  | nil => simp [getMeta]
  | cons p md ih =>
    obtain ⟨k2, v2⟩ := p
    by_cases h2 : k2 = k
    · subst h2
      simp only [List.map_cons]
      rw [if_pos trivial]
      rw [getMeta_cons_ne _ _ _ _ (Ne.symm h), getMeta_cons_ne _ _ _ _ (Ne.symm h)]
      exact ih
    · simp only [List.map_cons, if_neg h2]
      by_cases h3 : k2 = k'
      · subst h3
        simp [getMeta, List.find?_cons]
      · rw [getMeta_cons_ne _ _ _ _ h3, getMeta_cons_ne _ _ _ _ h3]
        exact ih

lemma getMeta_setMeta_same (md : Metadata) (k : String) (v : MetaValue) :
    getMeta (setMeta md k v) k = some v := by
  induction md with
  | nil => simp [setMeta, getMeta]
  | cons p md ih =>
    obtain ⟨k1, v1⟩ := p
    by_cases h : k1 = k
    · subst h
      unfold setMeta
      simp only [List.any_cons, decide_True, Bool.true_or]
      rw [if_pos trivial]
      simp only [List.map_cons]
      rw [if_pos trivial]
      simp [getMeta, List.find?_cons]
    · rw [setMeta_cons_ne k1 v1 md k v h, getMeta_cons_ne k1 v1 _ k h]
      exact ih

lemma getMeta_setMeta_ne (md : Metadata) (k k' : String) (v : MetaValue)
    (h : k' ≠ k) :
    getMeta (setMeta md k v) k' = getMeta md k' := by
  induction md with
  | nil => simp [setMeta, getMeta, List.find?_cons, Ne.symm h]
  | cons p md ih =>
    obtain ⟨k1, v1⟩ := p
    by_cases h1 : k1 = k
    · subst h1
      unfold setMeta
      simp only [List.any_cons, decide_True, Bool.true_or]
      rw [if_pos trivial]
      simp only [List.map_cons]
      rw [if_pos trivial]
      rw [getMeta_cons_ne _ _ _ _ (Ne.symm h), getMeta_cons_ne _ _ _ _ (Ne.symm h)]
      exact getMeta_map_overwrite md k1 k' v h
    · rw [setMeta_cons_ne k1 v1 md k v h1]
      by_cases h2 : k1 = k'
      · subst h2
        simp [getMeta, List.find?_cons]
      · rw [getMeta_cons_ne _ _ _ _ h2, getMeta_cons_ne _ _ _ _ h2]
        exact ih

lemma countP_zip_map {α β : Type} (l : List α) (f : α → β)
    (p : α × β → Bool) :
    (l.zip (l.map f)).countP p = l.countP (fun a => p (a, f a)) := by
  induction l with
  | nil => simp
  | cons a l ih => simp [List.countP_cons, ih]

-- -- Claims -------------------------------------------------------------------

/-- C8: `cosineSimilarity` is symmetric, and is exactly 0 whenever the two
vectors have unequal lengths, either vector is empty, or — for any square
root fixing 0 — either vector has zero norm (zero sum of squares). -/
theorem cosineSimilarity_symm_and_zero (sqrt : ℚ → ℚ) (a b : List ℚ) :
    cosineSimilarity sqrt a b = cosineSimilarity sqrt b a ∧
    (a.length ≠ b.length → cosineSimilarity sqrt a b = 0) ∧
    (a = [] ∨ b = [] → cosineSimilarity sqrt a b = 0) ∧
    (sqrt 0 = 0 →
      (a.map (fun x => x * x)).sum = 0 ∨ (b.map (fun x => x * x)).sum = 0 →
      cosineSimilarity sqrt a b = 0) := by
  refine ⟨?_, ?_, ?_, ?_⟩
  · simp only [cosineSimilarity]
    by_cases hl : a.length = b.length
    · by_cases ha : a.length = 0
      · rw [if_pos (Or.inr ha), if_pos (Or.inr (hl ▸ ha))]
      · have hb : ¬ b.length = 0 := fun h => ha (hl.trans h)
        rw [List.zipWith_comm_of_comm (· * ·) mul_comm a b,
          mul_comm (sqrt ((List.map (fun x => x * x) a).sum))]
        rw [if_neg (show ¬(a.length ≠ b.length ∨ a.length = 0) by
            push_neg; exact ⟨hl, ha⟩),
          if_neg (show ¬(b.length ≠ a.length ∨ b.length = 0) by
            push_neg; exact ⟨hl.symm, hb⟩)]
    · rw [if_pos (Or.inl hl), if_pos (Or.inl (fun h => hl h.symm))]
  · intro h
    simp only [cosineSimilarity]
    rw [if_pos (Or.inl h)]
  · intro h
    rcases h with h | h
    · subst h
      simp [cosineSimilarity]
    · subst h
      by_cases ha : a.length = 0
      · simp [cosineSimilarity, ha]
      · simp [cosineSimilarity, ha]
  · intro hs h
    simp only [cosineSimilarity]
    by_cases hc : a.length ≠ b.length ∨ a.length = 0
    · rw [if_pos hc]
    · rw [if_neg hc]
      rcases h with h | h
      · rw [h, hs, zero_mul]
        rw [if_pos rfl]
      · rw [h, hs, mul_zero]
        rw [if_pos rfl]

/-- C8 witness: the hypotheses of `cosineSimilarity_symm_and_zero`
discharged at concrete inputs. -/
theorem cosineSimilarity_symm_and_zero_witness :
    cosineSimilarity id [(1 : ℚ)] [1, 2] = 0 ∧
    cosineSimilarity id ([] : List ℚ) [] = 0 ∧
    cosineSimilarity id [(0 : ℚ), 0] [3, 4] = 0 :=
  ⟨(cosineSimilarity_symm_and_zero id [(1 : ℚ)] [1, 2]).2.1 (by decide),
   (cosineSimilarity_symm_and_zero id ([] : List ℚ) []).2.2.1 (Or.inl rfl),
   (cosineSimilarity_symm_and_zero id [(0 : ℚ), 0] [3, 4]).2.2.2 rfl
     (Or.inl (by norm_num))⟩

/-- C9: `forget` returns exactly the input records whose similarity to the
query embedding is strictly below the threshold, in original order, and
`forgotten + survivors.length = input.length`. -/
theorem forget_correct (sqrt : ℚ → ℚ) (memories : List Memory)
    (queryEmbedding : List ℚ) (threshold : ℚ) :
    (forget sqrt memories queryEmbedding threshold).1 =
      memories.filter
        (fun m =>
          cosineSimilarity sqrt m.embedding queryEmbedding < threshold) ∧
    (forget sqrt memories queryEmbedding threshold).2 +
      (forget sqrt memories queryEmbedding threshold).1.length =
      memories.length := by
  constructor
  · rfl
  · exact Nat.sub_add_cancel (List.length_filter_le _ _)

lemma decayMem_tier_cases (now hotDays warmDays coldDays : ℚ) (m : Memory) :
    (tierIdx (decayMem now hotDays warmDays coldDays m).tier = tierIdx m.tier ∨
      tierIdx (decayMem now hotDays warmDays coldDays m).tier =
        tierIdx m.tier + 1) ∧
    (m.tier = .archive →
      (decayMem now hotDays warmDays coldDays m).tier = .archive) := by
  constructor
  · rcases hm : m.tier with _ | _ | _ | _ <;>
      simp only [decayMem, hm] <;> split_ifs <;> simp_all [tierIdx]
  · intro hm
    simp [decayMem, hm]

/-- C1: over any record collection and thresholds, decay is tier-monotonic
and single-step — each output tier is the input tier or the immediately next
tier, and archive-tier records stay archive. -/
theorem decay_tier_monotonic (now hotDays warmDays coldDays : ℚ)
    (memories : List Memory) (i : ℕ) (hi : i < memories.length) :
    ∃ hi' : i < (decay now hotDays warmDays coldDays memories).1.length,
      (tierIdx ((decay now hotDays warmDays coldDays memories).1[i]).tier =
          tierIdx memories[i].tier ∨
        tierIdx ((decay now hotDays warmDays coldDays memories).1[i]).tier =
          tierIdx memories[i].tier + 1) ∧
      (memories[i].tier = MemoryTier.archive →
        ((decay now hotDays warmDays coldDays memories).1[i]).tier =
          MemoryTier.archive) := by
  have hlen : (decay now hotDays warmDays coldDays memories).1.length =
      memories.length := by
    simp [decay]
  refine ⟨by rw [hlen]; exact hi, ?_⟩
  have hget : ∀ h : i < (decay now hotDays warmDays coldDays memories).1.length,
      (decay now hotDays warmDays coldDays memories).1[i] =
        decayMem now hotDays warmDays coldDays memories[i] := fun h => by
    simp [decay]
  rw [hget (by rw [hlen]; exact hi)]
  exact decayMem_tier_cases now hotDays warmDays coldDays memories[i]

/-- C1 witness: the index-bound hypothesis discharged on a one-record
collection. -/
theorem decay_tier_monotonic_witness :
    ∃ hi' : 0 < (decay 0 7 30 365 [demoMem "m1" .hot [1]]).1.length,
      (tierIdx ((decay 0 7 30 365 [demoMem "m1" .hot [1]]).1[0]).tier =
          tierIdx ([demoMem "m1" .hot [1]][0]).tier ∨
        tierIdx ((decay 0 7 30 365 [demoMem "m1" .hot [1]]).1[0]).tier =
          tierIdx ([demoMem "m1" .hot [1]][0]).tier + 1) ∧
      (([demoMem "m1" .hot [1]][0]).tier = MemoryTier.archive →
        ((decay 0 7 30 365 [demoMem "m1" .hot [1]]).1[0]).tier =
          MemoryTier.archive) :=
  decay_tier_monotonic 0 7 30 365 [demoMem "m1" .hot [1]] 0 (by decide)

/-- C6: `decay` computes
`effectiveAge = (ageDays - min(accessCount*0.5, 5)) / (1 + importance*2)`
with `ageDays = (now - createdAt)/86400000`, advances `hot→warm` iff
`effectiveAge > hotDays`, `warm→cold` iff `> warmDays`, `cold→archive` iff
`> coldDays` (each applied to the record's current tier only), leaves the
record unchanged otherwise, and `changed` counts the records whose tier
differs between input and output. -/
theorem decay_correct (now hotDays warmDays coldDays : ℚ) (m : Memory)
    (memories : List Memory) :
    ((m.tier = MemoryTier.hot →
        decayMem now hotDays warmDays coldDays m =
          if ((now - m.createdAt) / 86400000 -
                min ((m.accessCount : ℚ) * 0.5) 5) / (1 + m.importance * 2) >
              hotDays
          then { m with tier := MemoryTier.warm } else m) ∧
      (m.tier = MemoryTier.warm →
        decayMem now hotDays warmDays coldDays m =
          if ((now - m.createdAt) / 86400000 -
                min ((m.accessCount : ℚ) * 0.5) 5) / (1 + m.importance * 2) >
              warmDays
          then { m with tier := MemoryTier.cold } else m) ∧
      (m.tier = MemoryTier.cold →
        decayMem now hotDays warmDays coldDays m =
          if ((now - m.createdAt) / 86400000 -
                min ((m.accessCount : ℚ) * 0.5) 5) / (1 + m.importance * 2) >
              coldDays
          then { m with tier := MemoryTier.archive } else m) ∧
      (m.tier = MemoryTier.archive →
        decayMem now hotDays warmDays coldDays m = m)) ∧
    (decay now hotDays warmDays coldDays memories).1 =
      memories.map (decayMem now hotDays warmDays coldDays) ∧
    (decay now hotDays warmDays coldDays memories).2 =
      (memories.zip (decay now hotDays warmDays coldDays memories).1).countP
        (fun p => p.1.tier ≠ p.2.tier) := by
  refine ⟨⟨?_, ?_, ?_, ?_⟩, rfl, ?_⟩
  · intro hm
    simp only [decayMem, hm]
    split_ifs with h1 h2 h3 h4 <;> simp_all
  · intro hm
    simp only [decayMem, hm]
    split_ifs with h1 h2 h3 h4 <;> simp_all
  · intro hm
    simp only [decayMem, hm]
    split_ifs with h1 h2 h3 h4 <;> simp_all
  · intro hm
    simp [decayMem, hm]
  · have hzip : memories.zip (decay now hotDays warmDays coldDays memories).1 =
        memories.zip
          (memories.map (decayMem now hotDays warmDays coldDays)) := rfl
    rw [hzip, countP_zip_map]
    simp only [decay]
    congr 1
    funext a
    exact decide_eq_decide.mpr ne_comm

/-- C6 witness: the per-tier hypotheses discharged on concrete records. -/
theorem decay_correct_witness :
    (decayMem (10 * 86400000) 7 30 365 (demoMem "m1" .hot [1])).tier =
      MemoryTier.warm ∧
    decayMem (10 * 86400000) 7 30 365 (demoMem "m2" .archive [1]) =
      demoMem "m2" .archive [1] := by
  constructor
  · have h := ((decay_correct (10 * 86400000) 7 30 365
      (demoMem "m1" .hot [1]) []).1.1) rfl
    rw [h, if_pos (by simp [demoMem]; norm_num [min_def])]
  · exact ((decay_correct (10 * 86400000) 7 30 365
      (demoMem "m2" .archive [1]) []).1.2.2.2) rfl

/-- C7: `archive` rewrites exactly the archive-tier records with content
longer than `truncateLength` and no `consolidated` tag — truncating content
to the first `truncateLength` characters plus an ellipsis and extending
metadata with `truncated = true` and `originalLength` — leaves every other
record unchanged, and is disabled entirely when `truncateLength ≤ 0`. -/
theorem archive_correct (truncateLength : ℤ) (m : Memory)
    (memories : List Memory) :
    (truncateLength ≤ 0 →
      archive truncateLength memories = (memories, 0)) ∧
    (0 < truncateLength →
      (archive truncateLength memories).1 =
        memories.map (archiveMem truncateLength) ∧
      (archive truncateLength memories).2 =
        memories.countP (fun m => archiveCond truncateLength m)) ∧
    (¬ archiveCond truncateLength m → archiveMem truncateLength m = m) ∧
    (archiveCond truncateLength m →
      (archiveMem truncateLength m).content =
        m.content.take truncateLength.toNat ++ "..." ∧
      getMeta (archiveMem truncateLength m).metadata "truncated" =
        some (.bool true) ∧
      getMeta (archiveMem truncateLength m).metadata "originalLength" =
        some (.num m.content.length) ∧
      (archiveMem truncateLength m).id = m.id ∧
      (archiveMem truncateLength m).tier = m.tier ∧
      (archiveMem truncateLength m).tags = m.tags ∧
      (archiveMem truncateLength m).importance = m.importance ∧
      (archiveMem truncateLength m).embedding = m.embedding ∧
      ∀ k, k ≠ "truncated" → k ≠ "originalLength" →
        getMeta (archiveMem truncateLength m).metadata k =
          getMeta m.metadata k) := by
  refine ⟨?_, ?_, ?_, ?_⟩
  · intro h
    simp [archive, h]
  · intro h
    rw [archive, if_neg (not_le.mpr h)]
    exact ⟨rfl, rfl⟩
  · intro h
    simp [archiveMem, h]
  · intro h
    unfold archiveMem
    rw [if_pos h]
    refine ⟨rfl, ?_, ?_, rfl, rfl, rfl, rfl, rfl, ?_⟩
    · rw [getMeta_setMeta_ne _ _ _ _ (by decide), getMeta_setMeta_same]
    · rw [getMeta_setMeta_same]
    · intro k hk1 hk2
      rw [getMeta_setMeta_ne _ _ _ _ hk2, getMeta_setMeta_ne _ _ _ _ hk1]

/-- C7 witness: the disabled case and the truncation case discharged on
concrete records. -/
theorem archive_correct_witness :
    archive 0 [demoMem "m1" .hot [1]] = ([demoMem "m1" .hot [1]], 0) ∧
    (archiveMem 5 (demoMem "m3" .archive [1])).content =
      (demoMem "m3" .archive [1]).content.take 5 ++ "..." ∧
    getMeta (archiveMem 5 (demoMem "m3" .archive [1])).metadata "truncated" =
      some (.bool true) := by
  have hcond : archiveCond 5 (demoMem "m3" .archive [1]) := by
    refine ⟨rfl, ?_, by simp [demoMem]⟩
    simp [demoMem]
    decide
  refine ⟨(archive_correct 0 (demoMem "m1" .hot [1])
      [demoMem "m1" .hot [1]]).1 (by decide),
    ((archive_correct 5 (demoMem "m3" .archive [1]) []).2.2.2 hcond).1,
    ((archive_correct 5 (demoMem "m3" .archive [1]) []).2.2.2 hcond).2.1⟩

lemma dedupInner_mem (sqrt : ℚ → ℚ) (threshold : ℚ) (memories : List Memory)
    (mi : Memory) (i : ℕ) (js : List ℕ) (remove : Finset ℕ) (x : ℕ)
    (hx : x ∈ dedupInner sqrt threshold memories mi i js remove) :
    x ∈ remove ∨ x ∈ js ∨ x = i := by
  induction js generalizing remove with
  | nil =>
    simp only [dedupInner] at hx
    exact Or.inl hx
  | cons j js ih =>
    simp only [dedupInner] at hx
    split_ifs at hx
    · rcases ih remove hx with h | h | h
      · exact Or.inl h
      · exact Or.inr (Or.inl (List.mem_cons_of_mem j h))
      · exact Or.inr (Or.inr h)
    · rcases ih (insert j remove) hx with h | h | h
      · rcases Finset.mem_insert.mp h with h | h
        · exact Or.inr (Or.inl (h ▸ List.mem_cons_self j js))
        · exact Or.inl h
      · exact Or.inr (Or.inl (List.mem_cons_of_mem j h))
      · exact Or.inr (Or.inr h)
    · rcases Finset.mem_insert.mp hx with h | h
      · exact Or.inr (Or.inr h)
      · exact Or.inl h
    · rcases ih remove hx with h | h | h
      · exact Or.inl h
      · exact Or.inr (Or.inl (List.mem_cons_of_mem j h))
      · exact Or.inr (Or.inr h)

lemma dedupOuter_mem (sqrt : ℚ → ℚ) (threshold : ℚ) (memories : List Memory)
    (is : List ℕ) (remove : Finset ℕ) (x : ℕ)
    (hx : x ∈ dedupOuter sqrt threshold memories is remove) :
    x ∈ remove ∨ x ∈ is ∨ x < memories.length := by
  induction is generalizing remove with
  | nil =>
    simp only [dedupOuter] at hx
    exact Or.inl hx
  | cons i is ih =>
    simp only [dedupOuter] at hx
    split_ifs at hx
    · rcases ih remove hx with h | h | h
      · exact Or.inl h
      · exact Or.inr (Or.inl (List.mem_cons_of_mem i h))
      · exact Or.inr (Or.inr h)
    · rcases ih _ hx with h | h | h
      · rcases dedupInner_mem sqrt threshold memories _ i _ remove x h with
          h1 | h1 | h1
        · exact Or.inl h1
        · have := List.mem_range.mp (List.mem_of_mem_drop h1)
          exact Or.inr (Or.inr this)
        · exact Or.inr (Or.inl (h1 ▸ List.mem_cons_self i is))
      · exact Or.inr (Or.inl (List.mem_cons_of_mem i h))
      · exact Or.inr (Or.inr h)

/-- C4: `deduplicate` returns the survivors as a subsequence of the input
(original relative order), with `output.length + removed = input.length`,
and is a no-op on collections of size below 2. -/
theorem deduplicate_correct (sqrt : ℚ → ℚ) (threshold : ℚ)
    (memories : List Memory) :
    (deduplicate sqrt threshold memories).1.Sublist memories ∧
    (deduplicate sqrt threshold memories).1.length +
      (deduplicate sqrt threshold memories).2 = memories.length ∧
    (memories.length < 2 →
      deduplicate sqrt threshold memories = (memories, 0)) := by
  by_cases h2 : memories.length < 2
  · refine ⟨?_, ?_, fun _ => ?_⟩ <;> simp [deduplicate, h2]
  · simp only [deduplicate, if_neg h2]
    refine ⟨filterIdx_sublist _ _, ?_, fun h => absurd h h2⟩
    exact filterIdx_length _ _ (fun x hx => by
      rcases dedupOuter_mem sqrt threshold memories _ _ x hx with h | h | h
      · exact absurd h (Finset.not_mem_empty x)
      · exact List.mem_range.mp h
      · exact h)

/-- C4 witness: the size-below-2 hypothesis discharged on a singleton
collection. -/
theorem deduplicate_correct_witness :
    deduplicate id 0.92 [demoMem "m1" .hot [1]] =
      ([demoMem "m1" .hot [1]], 0) :=
  (deduplicate_correct id 0.92 [demoMem "m1" .hot [1]]).2.2 (by decide)

lemma clusterScan_spec (sqrt : ℚ → ℚ) (threshold : ℚ) (seed : Memory)
    (scan : List (ℕ × Memory)) (A : Finset ℕ) (group : List ℕ) :
    ∃ new : List ℕ,
      (clusterScan sqrt threshold seed scan A group).2 = group ++ new ∧
      (clusterScan sqrt threshold seed scan A group).1 = A ∪ new.toFinset ∧
      (∀ x ∈ new, x ∉ A) ∧
      (∀ x ∈ new, x ∈ scan.map Prod.fst) := by
  induction scan generalizing A group with
  | nil =>
    exact ⟨[], by simp [clusterScan], by simp [clusterScan], by simp, by simp⟩
  | cons q rest ih =>
    obtain ⟨oi, om⟩ := q
    simp only [clusterScan]
    split_ifs with h1 h2
    · obtain ⟨new, hg, ha, hnA, hsc⟩ := ih A group
      exact ⟨new, hg, ha, hnA,
        fun x hx => List.mem_cons_of_mem _ (hsc x hx)⟩
    · obtain ⟨new, hg, ha, hnA, hsc⟩ := ih (insert oi A) (group ++ [oi])
      refine ⟨oi :: new, ?_, ?_, ?_, ?_⟩
      · rw [hg, List.append_assoc]
        rfl
      · rw [ha, List.toFinset_cons, Finset.union_insert, Finset.insert_union]
      · intro x hx
        rcases List.mem_cons.mp hx with h | h
        · exact h ▸ h1
        · exact fun hxa => hnA x h (Finset.mem_insert_of_mem hxa)
      · intro x hx
        rcases List.mem_cons.mp hx with h | h
        · exact h ▸ List.mem_cons_self _ _
        · exact List.mem_cons_of_mem _ (hsc x h)
    · obtain ⟨new, hg, ha, hnA, hsc⟩ := ih A group
      exact ⟨new, hg, ha, hnA,
        fun x hx => List.mem_cons_of_mem _ (hsc x hx)⟩

lemma clusterOuter_inv (sqrt : ℚ → ℚ) (threshold minClusterSize : ℚ)
    (cands : List (ℕ × Memory)) (todo : List (ℕ × Memory)) (A : Finset ℕ)
    (clusters : List (List ℕ))
    (ha : ∀ c ∈ clusters, ∀ x ∈ c, x ∈ A)
    (hb : List.Pairwise List.Disjoint clusters)
    (hc : ∀ c ∈ clusters, (c.length : ℚ) ≥ minClusterSize)
    (hd : ∀ c ∈ clusters, ∀ x ∈ c, x ∈ cands.map Prod.fst)
    (htodo : ∀ p ∈ todo, p ∈ cands) :
    List.Pairwise List.Disjoint
      (clusterOuter sqrt threshold minClusterSize cands todo A clusters) ∧
    (∀ c ∈ clusterOuter sqrt threshold minClusterSize cands todo A clusters,
      (c.length : ℚ) ≥ minClusterSize) ∧
    (∀ c ∈ clusterOuter sqrt threshold minClusterSize cands todo A clusters,
      ∀ x ∈ c, x ∈ cands.map Prod.fst) := by
  induction todo generalizing A clusters with
  | nil =>
    simp only [clusterOuter]
    exact ⟨hb, hc, hd⟩
  | cons q rest ih =>
    obtain ⟨si, sm⟩ := q
    simp only [clusterOuter]
    split_ifs with h1 h2
    · exact ih A clusters ha hb hc hd
        (fun p hp => htodo p (List.mem_cons_of_mem _ hp))
    · -- keep the group
      obtain ⟨new, hg, hA, hnA, hsc⟩ :=
        clusterScan_spec sqrt threshold sm cands (insert si A) [si]
      have hgroupA : ∀ x ∈ (clusterScan sqrt threshold sm cands
          (insert si A) [si]).2, x ∉ A := by
        rw [hg]
        intro x hx
        rcases List.mem_append.mp hx with h | h
        · rcases List.mem_singleton.mp h with rfl
          exact h1
        · exact fun hxa => hnA x h (Finset.mem_insert_of_mem hxa)
      refine ih _ _ ?_ ?_ ?_ ?_
        (fun p hp => htodo p (List.mem_cons_of_mem _ hp))
      · intro c hcm x hx
        rcases List.mem_append.mp hcm with h | h
        · have := ha c h x hx
          rw [hA]
          exact Finset.mem_union_left _ (Finset.mem_insert_of_mem this)
        · rcases List.mem_singleton.mp h with rfl
          rw [hA, hg] at *
          rcases List.mem_append.mp hx with h | h
          · rcases List.mem_singleton.mp h with rfl
            exact Finset.mem_union_left _ (Finset.mem_insert_self _ _)
          · exact Finset.mem_union_right _ (List.mem_toFinset.mpr h)
      · rw [List.pairwise_append]
        refine ⟨hb, List.pairwise_singleton _ _, ?_⟩
        intro c hcm g hgm x hxc hxg
        rcases List.mem_singleton.mp hgm with rfl
        exact hgroupA x hxg (ha c hcm x hxc)
      · intro c hcm
        rcases List.mem_append.mp hcm with h | h
        · exact hc c h
        · rcases List.mem_singleton.mp h with rfl
          exact h2
      · intro c hcm x hx
        rcases List.mem_append.mp hcm with h | h
        · exact hd c h x hx
        · rcases List.mem_singleton.mp h with rfl
          rw [hg] at hx
          rcases List.mem_append.mp hx with h | h
          · rcases List.mem_singleton.mp h with rfl
            exact List.mem_map.mpr ⟨(x, sm), htodo _ (List.mem_cons_self _ _), rfl⟩
          · exact hsc x h
    · -- dissolve the group
      obtain ⟨new, hg, hA, hnA, hsc⟩ :=
        clusterScan_spec sqrt threshold sm cands (insert si A) [si]
      refine ih _ _ ?_ hb hc hd
        (fun p hp => htodo p (List.mem_cons_of_mem _ hp))
      intro c hcm x hx
      have hxA : x ∈ A := ha c hcm x hx
      rw [Finset.mem_sdiff]
      constructor
      · rw [hA]
        exact Finset.mem_union_left _ (Finset.mem_insert_of_mem hxA)
      · rw [hg]
        intro hmem
        rcases List.mem_toFinset.mp hmem with hm
        rcases List.mem_append.mp hm with h | h
        · rcases List.mem_singleton.mp h with rfl
          exact h1 hxA
        · exact hnA x h (Finset.mem_insert_of_mem hxA)

/-- C5: every group returned by `cluster` has size at least
`minClusterSize`, the groups are pairwise disjoint, every member index
refers to a warm- or cold-tier record, and a candidate count below
`minClusterSize` yields no clusters. -/
theorem cluster_correct (sqrt : ℚ → ℚ) (threshold minClusterSize : ℚ)
    (memories : List Memory) :
    (∀ g ∈ cluster sqrt threshold minClusterSize memories,
      (g.length : ℚ) ≥ minClusterSize) ∧
    List.Pairwise List.Disjoint
      (cluster sqrt threshold minClusterSize memories) ∧
    (∀ g ∈ cluster sqrt threshold minClusterSize memories, ∀ i ∈ g,
      ∃ h : i < memories.length,
        (memories.get ⟨i, h⟩).tier = MemoryTier.warm ∨
        (memories.get ⟨i, h⟩).tier = MemoryTier.cold) ∧
    (((memories.enum.filter (fun p => warmOrCold p.2)).length : ℚ) <
        minClusterSize →
      cluster sqrt threshold minClusterSize memories = []) := by
  by_cases hn : ((memories.enum.filter
      (fun p => warmOrCold p.2)).length : ℚ) < minClusterSize
  · simp [cluster, hn]
  · have hout := clusterOuter_inv sqrt threshold minClusterSize
      (memories.enum.filter (fun p => warmOrCold p.2))
      (memories.enum.filter (fun p => warmOrCold p.2)) ∅ []
      (by simp) (by simp) (by simp) (by simp) (fun p hp => hp)
    have hcl : cluster sqrt threshold minClusterSize memories =
        clusterOuter sqrt threshold minClusterSize
          (memories.enum.filter (fun p => warmOrCold p.2))
          (memories.enum.filter (fun p => warmOrCold p.2)) ∅ [] := by
      simp only [cluster, if_neg hn]
    rw [hcl]
    refine ⟨hout.2.1, hout.1, ?_, fun h => absurd h hn⟩
    intro g hg i hi
    have hmem := hout.2.2 g hg i hi
    obtain ⟨p, hp, hpi⟩ := List.mem_map.mp hmem
    have hpf := List.mem_filter.mp hp
    obtain ⟨hlt, hval⟩ := List.mem_enum hpf.1
    subst hpi
    refine ⟨hlt, ?_⟩
    have hwc := hpf.2
    rw [hval] at hwc
    simp only [warmOrCold, Bool.or_eq_true, decide_eq_true_eq] at hwc
    simpa using hwc

/-- C5 witness: the hypotheses discharged on a concrete three-record
collection clustering into a single group. -/
theorem cluster_correct_witness :
    (([0, 1, 2] : List ℕ).length : ℚ) ≥ 3 ∧
    cluster id 0.78 3 [demoMem "a" .hot [1]] = [] :=
  ⟨(cluster_correct id 0.78 3
      [demoMem "a" .warm [1], demoMem "b" .warm [1],
        demoMem "c" .warm [1]]).1 [0, 1, 2] (by decide),
    (cluster_correct id 0.78 3 [demoMem "a" .hot [1]]).2.2.2 (by decide)⟩

lemma mapM_content_eq (memories : List Memory) (g : List ℕ)
    (hv : ∀ i ∈ g, i < memories.length) :
    g.mapM (fun i => (memories.get? i).map Memory.content) =
      some (g.map (fun i => (memories.getD i default).content)) := by
  induction g with
  | nil => rfl
  | cons i g ih =>
    have hi : i < memories.length := hv i (List.mem_cons_self i g)
    have hrest := ih (fun j hj => hv j (List.mem_cons_of_mem i hj))
    simp only [List.mapM_cons, hrest, List.map_cons]
    rw [List.get?_eq_get hi, List.getD_eq_getElem _ _ hi]
    rfl

lemma sumStep_of_failed (memories : List Memory) (g : List ℕ)
    (summarizer : Summarizer) (nowISO : String) (st : SumState)
    (hv : ∀ i ∈ g, i < memories.length)
    (hfail :
      summarizer (g.map (fun i => (memories.getD i default).content)) =
        none ∨
      ∃ s,
        summarizer (g.map (fun i => (memories.getD i default).content)) =
          some s ∧ s.length < 10) :
    sumStep memories summarizer nowISO st g = st := by
  unfold sumStep
  rw [mapM_content_eq memories g hv]
  rcases hfail with h | ⟨s, hs, hlen⟩
  · simp only [h]
  · simp only [hs]
    rw [if_pos hlen]

/-- C2: a cluster whose summarizer invocation rejects, or returns a result of
fewer than 10 characters (hence also the empty string), is skipped: it
contributes nothing to the merged count, leaves every record untouched, and
the remaining clusters are processed exactly as if the failed cluster were
absent — `summarizeClusters` (and hence `consolidate`) still returns
normally. -/
theorem summarizeClusters_skips_failed (memories : List Memory)
    (pre post : List (List ℕ)) (g : List ℕ) (summarizer : Summarizer)
    (nowISO : String)
    (hv : ∀ i ∈ g, i < memories.length)
    (hfail :
      summarizer (g.map (fun i => (memories.getD i default).content)) =
        none ∨
      ∃ s,
        summarizer (g.map (fun i => (memories.getD i default).content)) =
          some s ∧ s.length < 10) :
    summarizeClusters memories (pre ++ g :: post) summarizer nowISO =
      summarizeClusters memories (pre ++ post) summarizer nowISO := by
  unfold summarizeClusters
  rw [List.foldl_append, List.foldl_cons,
    sumStep_of_failed memories g summarizer nowISO _ hv hfail,
    ← List.foldl_append]

/-- C2 witness: the hypotheses discharged with a rejecting summarizer and
with a too-short summary, on a concrete record. -/
theorem summarizeClusters_skips_failed_witness :
    summarizeClusters [demoMem "a" .warm [1]] [[0]] (fun _ => none) "T" =
      summarizeClusters [demoMem "a" .warm [1]] [] (fun _ => none) "T" ∧
    summarizeClusters [demoMem "a" .warm [1]] [[0]] (fun _ => some "short") "T" =
      summarizeClusters [demoMem "a" .warm [1]] [] (fun _ => some "short") "T" :=
  ⟨summarizeClusters_skips_failed [demoMem "a" .warm [1]] [] [] [0]
      (fun _ => none) "T" (by decide) (Or.inl rfl),
    summarizeClusters_skips_failed [demoMem "a" .warm [1]] [] [] [0]
      (fun _ => some "short") "T" (by decide)
      (Or.inr ⟨"short", rfl, by decide⟩)⟩

lemma filter_map_snd_eq_filterMap {α : Type} (L : List (ℕ × α))
    (T : Finset ℕ) :
    (L.filter (fun p => p.1 ∉ T)).map Prod.snd =
      L.filterMap (fun p => if p.1 ∈ T then none else some p.2) := by
  induction L with
  | nil => rfl
  | cons p L ih =>
    by_cases hp : p.1 ∈ T <;>
      · simp only [decide_not] at ih
        simp [List.filterMap_cons, hp, ih]

lemma filterIdx_eq_filterMap {α : Type} (l : List α) (T : Finset ℕ) :
    filterIdx l T =
      l.enum.filterMap (fun p => if p.1 ∈ T then none else some p.2) :=
  filter_map_snd_eq_filterMap _ _

lemma enumFrom_set {α : Type} (l : List α) (n b : ℕ) (u : α) :
    (l.set b u).enumFrom n =
      (l.enumFrom n).map (fun p => if p.1 = n + b then (n + b, u) else p) := by
  induction l generalizing n b with
  | nil => simp
  | cons a l ih =>
    cases b with
    | zero =>
      rw [List.set_cons_zero, List.enumFrom_cons, List.enumFrom_cons]
      rw [List.map_cons]
      have h1 : (if ((n, a) : ℕ × α).1 = n + 0 then (n + 0, u) else (n, a)) =
          (n, u) := by simp
      rw [h1]
      have h2 : (List.enumFrom (n + 1) l).map
          (fun p => if p.1 = n + 0 then (n + 0, u) else p) =
          List.enumFrom (n + 1) l := by
        rw [show (List.enumFrom (n + 1) l).map
            (fun p => if p.1 = n + 0 then (n + 0, u) else p) =
            (List.enumFrom (n + 1) l).map id from
          List.map_congr_left ?_, List.map_id]
        intro p hp
        have := (List.mem_enumFrom ((show p = (p.1, p.2) from rfl) ▸ hp)).1
        simp only [id_eq]
        rw [if_neg (by omega)]
      rw [h2]
    | succ b =>
      rw [List.set_cons_succ, List.enumFrom_cons, List.enumFrom_cons,
        List.map_cons]
      have h1 : (if ((n, a) : ℕ × α).1 = n + (b + 1) then (n + (b + 1), u)
          else (n, a)) = (n, a) := by
        rw [if_neg (by omega)]
      rw [h1, ih (n + 1) b]
      have h2 : n + 1 + b = n + (b + 1) := by omega
      rw [h2]

lemma enum_set {α : Type} (l : List α) (b : ℕ) (u : α) :
    (l.set b u).enum =
      l.enum.map (fun p => if p.1 = b then (b, u) else p) := by
  have h := enumFrom_set l 0 b u
  simpa using h

lemma set_self {α : Type} (l : List α) (k : ℕ) (h : k < l.length) :
    l.set k l[k] = l := by
  apply List.ext_getElem
  · simp
  · intro i h1 h2
    by_cases hik : i = k
    · subst hik
      simp [List.getElem_set_self]
    · rw [List.getElem_set_ne]
      omega

lemma bestOf_spec (memories : List Memory) (g0 : ℕ) (rest : List ℕ) :
    ∃ pre post, g0 :: rest = pre ++ bestOf memories g0 rest :: post ∧
      (∀ x ∈ pre, memScore (memories.getD x default) <
        memScore (memories.getD (bestOf memories g0 rest) default)) ∧
      (∀ x ∈ post, memScore (memories.getD x default) ≤
        memScore (memories.getD (bestOf memories g0 rest) default)) := by
  induction rest generalizing g0 with
  | nil =>
    exact ⟨[], [], by simp [bestOf], by simp, by simp⟩
  | cons b rest ih =>
    have hstep : bestOf memories g0 (b :: rest) =
        bestOf memories
          (if memScore (memories.getD g0 default) ≥
              memScore (memories.getD b default) then g0 else b) rest := rfl
    by_cases hge : memScore (memories.getD g0 default) ≥
        memScore (memories.getD b default)
    · rw [if_pos hge] at hstep
      obtain ⟨pre, post, heq, hpre, hpost⟩ := ih g0
      rw [hstep]
      cases pre with
      | nil =>
        simp only [List.nil_append] at heq
        injection heq with h1 h2
        refine ⟨[], b :: post, ?_, by simp, ?_⟩
        · simp only [List.nil_append]
          rw [← h1, ← h2]
        · intro x hx
          rcases List.mem_cons.mp hx with rfl | hx
          · rw [← h1]
            exact hge
          · exact hpost x hx
      | cons p0 pre' =>
        simp only [List.cons_append] at heq
        injection heq with h1 h2
        refine ⟨g0 :: b :: pre', post, ?_, ?_, hpost⟩
        · simp only [List.cons_append]
          exact congrArg (fun t => g0 :: b :: t) h2
        · intro x hx
          have hg0B : memScore (memories.getD g0 default) <
              memScore (memories.getD (bestOf memories g0 rest) default) :=
            h1.symm ▸ hpre p0 (List.mem_cons_self _ _)
          rcases List.mem_cons.mp hx with rfl | hx
          · exact hg0B
          · rcases List.mem_cons.mp hx with rfl | hx
            · exact lt_of_le_of_lt hge hg0B
            · exact hpre x (List.mem_cons_of_mem _ hx)
    · rw [if_neg hge] at hstep
      have hlt : memScore (memories.getD g0 default) <
          memScore (memories.getD b default) := not_le.mp hge
      obtain ⟨pre, post, heq, hpre, hpost⟩ := ih b
      rw [hstep]
      refine ⟨g0 :: pre, post, ?_, ?_, hpost⟩
      · simp only [List.cons_append]
        exact congrArg (fun t => g0 :: t) heq
      · intro x hx
        have hbB : memScore (memories.getD b default) ≤
            memScore (memories.getD (bestOf memories b rest) default) := by
          cases pre with
          | nil =>
            simp only [List.nil_append] at heq
            injection heq with h1 _
            rw [← h1]
          | cons p0 pre' =>
            simp only [List.cons_append] at heq
            injection heq with h1 _
            exact le_of_lt (h1.symm ▸ hpre p0 (List.mem_cons_self _ _))
        rcases List.mem_cons.mp hx with rfl | hx
        · exact lt_of_lt_of_le hlt hbB
        · exact hpre x hx

lemma foldl_max_spec (memories : List Memory) (rest : List ℕ) (q : ℚ) :
    q ≤ rest.foldl
        (fun acc i => max acc (memories.getD i default).importance) q ∧
    (∀ i ∈ rest, (memories.getD i default).importance ≤
      rest.foldl (fun acc i => max acc (memories.getD i default).importance) q) ∧
    (rest.foldl (fun acc i => max acc (memories.getD i default).importance) q =
        q ∨
      ∃ i ∈ rest,
        rest.foldl (fun acc i => max acc (memories.getD i default).importance)
          q = (memories.getD i default).importance) := by
  induction rest generalizing q with
  | nil => simp
  | cons j rest ih =>
    obtain ⟨h1, h2, h3⟩ := ih (max q (memories.getD j default).importance)
    simp only [List.foldl_cons]
    refine ⟨le_trans (le_max_left _ _) h1, ?_, ?_⟩
    · intro i hi
      rcases List.mem_cons.mp hi with rfl | hi
      · exact le_trans (le_max_right _ _) h1
      · exact h2 i hi
    · rcases h3 with h | ⟨i, hi, h⟩
      · rcases max_cases q (memories.getD j default).importance with
          ⟨hmax, _⟩ | ⟨hmax, _⟩
        · exact Or.inl (by rw [h, hmax])
        · exact Or.inr ⟨j, List.mem_cons_self _ _, by rw [h, hmax]⟩
      · exact Or.inr ⟨i, List.mem_cons_of_mem _ hi, h⟩

lemma maxImpOver_spec (memories : List Memory) (g0 : ℕ) (rest : List ℕ) :
    (∀ i ∈ g0 :: rest,
      (memories.getD i default).importance ≤ maxImpOver memories g0 rest) ∧
    ∃ i ∈ g0 :: rest,
      maxImpOver memories g0 rest = (memories.getD i default).importance := by
  obtain ⟨h1, h2, h3⟩ :=
    foldl_max_spec memories rest (memories.getD g0 default).importance
  constructor
  · intro i hi
    rcases List.mem_cons.mp hi with rfl | hi
    · exact h1
    · exact h2 i hi
  · rcases h3 with h | ⟨i, hi, h⟩
    · exact ⟨g0, List.mem_cons_self _ _, h⟩
    · exact ⟨i, List.mem_cons_of_mem _ hi, h⟩

lemma mem_dedupFirst : ∀ (l : List String) (x : String),
    x ∈ dedupFirst l ↔ x ∈ l
  | [], x => by simp [dedupFirst]
  | a :: l, x => by
    rw [dedupFirst]
    constructor
    · intro hx
      rcases List.mem_cons.mp hx with rfl | hx
      · exact List.mem_cons_self _ _
      · have := (mem_dedupFirst (l.filter (fun y => y ≠ a)) x).mp hx
        exact List.mem_cons_of_mem _ (List.mem_of_mem_filter this)
    · intro hx
      rcases List.mem_cons.mp hx with rfl | hx
      · exact List.mem_cons_self _ _
      · by_cases hxa : x = a
        · subst hxa
          exact List.mem_cons_self _ _
        · refine List.mem_cons_of_mem _ ?_
          exact (mem_dedupFirst _ x).mpr
            (List.mem_filter.mpr ⟨hx, by simp [hxa]⟩)
termination_by l x => l.length
decreasing_by
  all_goals
    simp only [List.length_cons]
    exact Nat.lt_succ_of_le (List.length_filter_le _ _)

lemma findIdx_id_nodup (memories : List Memory)
    (hnodup : (memories.map Memory.id).Nodup) (b : ℕ)
    (hb : b < memories.length) :
    memories.findIdx? (fun m => m.id = (memories.getD b default).id) =
      some b := by
  rw [List.findIdx?_eq_some_iff_findIdx_eq]
  refine ⟨hb, ?_⟩
  rw [List.findIdx_eq hb]
  constructor
  · rw [List.getD_eq_getElem _ _ hb]
    simp
  · intro j hj
    have hjb : j < memories.length := lt_trans hj hb
    rw [List.getD_eq_getElem _ _ hb]
    simp only [decide_eq_false_iff_not]
    intro he
    have hjm : j < (memories.map Memory.id).length := by
      rw [List.length_map]; exact hjb
    have hbm : b < (memories.map Memory.id).length := by
      rw [List.length_map]; exact hb
    have hmap : (memories.map Memory.id).get ⟨j, hjm⟩ =
        (memories.map Memory.id).get ⟨b, hbm⟩ := by
      simp only [List.get_eq_getElem, List.getElem_map]
      exact he
    rw [List.get_eq_getElem, List.get_eq_getElem] at hmap
    have hjbeq := (List.Nodup.getElem_inj_iff hnodup).mp hmap
    simp at hjbeq
    omega

lemma sumStep_merged (memories : List Memory) (summarizer : Summarizer)
    (nowISO : String) (st : SumState) (group : List ℕ) :
    (sumStep memories summarizer nowISO st group).merged =
      st.merged + mergeContrib memories summarizer group := by
  unfold sumStep mergeContrib
  cases hm : group.mapM (fun i => (memories.get? i).map Memory.content) with
  | none => simp
  | some texts =>
    cases hs : summarizer texts with
    | none => simp [hs]
    | some s =>
      simp only [hs]
      by_cases hlen : s.length < 10
      · simp [hlen]
      · cases group with
        | nil => simp [hlen]
        | cons g0 rest => simp [hlen]

lemma summarizeClusters_merged (memories : List Memory)
    (clusters : List (List ℕ)) (summarizer : Summarizer) (nowISO : String) :
    (summarizeClusters memories clusters summarizer nowISO).2 =
      (clusters.map (mergeContrib memories summarizer)).sum := by
  unfold summarizeClusters
  suffices h : ∀ st : SumState,
      (clusters.foldl (sumStep memories summarizer nowISO) st).merged =
        st.merged + (clusters.map (mergeContrib memories summarizer)).sum by
    simpa using h ⟨memories, ∅, 0⟩
  induction clusters with
  | nil => intro st; simp
  | cons g cs ih =>
    intro st
    rw [List.foldl_cons, ih, sumStep_merged]
    simp only [List.map_cons, List.sum_cons]
    omega

lemma mergeContrib_of_success (memories : List Memory)
    (summarizer : Summarizer) (g0 : ℕ) (rest : List ℕ) (summary : String)
    (hv : ∀ i ∈ g0 :: rest, i < memories.length)
    (hsum : summarizer
        ((g0 :: rest).map (fun i => (memories.getD i default).content)) =
      some summary)
    (hlen : 10 ≤ summary.length) :
    mergeContrib memories summarizer (g0 :: rest) = (g0 :: rest).length - 1 := by
  unfold mergeContrib
  rw [mapM_content_eq _ _ hv]
  simp only [hsum]
  rw [if_neg (by omega)]

lemma decayMem_id (now hotDays warmDays coldDays : ℚ) (m : Memory) :
    (decayMem now hotDays warmDays coldDays m).id = m.id := by
  simp only [decayMem]
  split_ifs <;> rfl

lemma decay_ids (now hotDays warmDays coldDays : ℚ) (memories : List Memory) :
    (decay now hotDays warmDays coldDays memories).1.map Memory.id =
      memories.map Memory.id := by
  simp only [decay]
  rw [List.map_map]
  exact List.map_congr_left
    (fun m _ => decayMem_id now hotDays warmDays coldDays m)

lemma archiveMem_id (truncateLength : ℤ) (m : Memory) :
    (archiveMem truncateLength m).id = m.id := by
  unfold archiveMem
  split_ifs <;> rfl

lemma archive_ids (truncateLength : ℤ) (memories : List Memory) :
    (archive truncateLength memories).1.map Memory.id =
      memories.map Memory.id := by
  unfold archive
  split_ifs
  · rfl
  · rw [List.map_map]
    exact List.map_congr_left (fun m _ => archiveMem_id truncateLength m)

lemma deduplicate_sublist (sqrt : ℚ → ℚ) (threshold : ℚ)
    (memories : List Memory) :
    (deduplicate sqrt threshold memories).1.Sublist memories := by
  unfold deduplicate
  split_ifs
  · exact List.Sublist.refl _
  · exact filterIdx_sublist _ _

lemma sumStep_result_ids (memories : List Memory) (summarizer : Summarizer)
    (nowISO : String) (st : SumState) (group : List ℕ) :
    (sumStep memories summarizer nowISO st group).result.map Memory.id =
      st.result.map Memory.id := by
  unfold sumStep
  cases hm : group.mapM (fun i => (memories.get? i).map Memory.content) with
  | none => rfl
  | some texts =>
    cases hs : summarizer texts with
    | none => simp [hs]
    | some s =>
      simp only [hs]
      by_cases hlen : s.length < 10
      · rw [if_pos hlen]
      · rw [if_neg hlen]
        cases group with
        | nil => rfl
        | cons g0 rest =>
          dsimp only
          split
          · rfl
          · rename_i k _
            by_cases hk : k < st.result.length
            · rw [List.map_set]
              have hid : (mergeUpdate (st.result.getD k default) s
                  (maxImpOver memories g0 rest) (g0 :: rest).length
                  nowISO).id = (st.result.getD k default).id := rfl
              rw [hid, List.getD_eq_getElem _ _ hk]
              have hk2 : k < (st.result.map Memory.id).length := by
                rw [List.length_map]; exact hk
              have hmm : (st.result.map Memory.id).get ⟨k, hk2⟩ =
                  (st.result[k]).id := by
                simp
              rw [← hmm, List.get_eq_getElem]
              exact set_self _ _ hk2
            · rw [List.set_eq_of_length_le (le_of_not_lt hk)]

lemma summarizeClusters_ids_sublist (memories : List Memory)
    (clusters : List (List ℕ)) (summarizer : Summarizer) (nowISO : String) :
    ((summarizeClusters memories clusters summarizer nowISO).1.map
      Memory.id).Sublist (memories.map Memory.id) := by
  unfold summarizeClusters
  have h : ∀ st : SumState,
      (clusters.foldl (sumStep memories summarizer nowISO) st).result.map
        Memory.id = st.result.map Memory.id := by
    induction clusters with
    | nil => intro st; rfl
    | cons g cs ih =>
      intro st
      rw [List.foldl_cons, ih, sumStep_result_ids]
  have hsub := List.Sublist.map Memory.id (filterIdx_sublist
    (clusters.foldl (sumStep memories summarizer nowISO)
      ⟨memories, ∅, 0⟩).result
    (clusters.foldl (sumStep memories summarizer nowISO)
      ⟨memories, ∅, 0⟩).toRemove)
  rw [h ⟨memories, ∅, 0⟩] at hsub
  exact hsub

/-- C10: no operation invents, duplicates, or reorders record identifiers —
the ids of the outputs of `decay`, `deduplicate`, `forget` and `consolidate`
form a subsequence of the input ids (decay even preserves them exactly). -/
theorem ids_subsequence (sqrt : ℚ → ℚ) (now endNow : ℚ) (endISO : String)
    (memories : List Memory) (cfg : Config)
    (summarizer : Option Summarizer)
    (hotDays warmDays coldDays threshold qthreshold : ℚ)
    (queryEmbedding : List ℚ) :
    ((decay now hotDays warmDays coldDays memories).1.map Memory.id =
      memories.map Memory.id) ∧
    ((deduplicate sqrt threshold memories).1.map Memory.id).Sublist
      (memories.map Memory.id) ∧
    ((forget sqrt memories queryEmbedding qthreshold).1.map
      Memory.id).Sublist (memories.map Memory.id) ∧
    ((consolidate sqrt now endNow endISO memories cfg summarizer).1.map
      Memory.id).Sublist (memories.map Memory.id) := by
  refine ⟨decay_ids now hotDays warmDays coldDays memories,
    List.Sublist.map Memory.id (deduplicate_sublist sqrt threshold memories),
    List.Sublist.map Memory.id (List.filter_sublist memories), ?_⟩
  have hdd : ((deduplicate sqrt cfg.deduplicateThreshold
      (decay now cfg.hotDays cfg.warmDays cfg.coldDays memories).1).1.map
      Memory.id).Sublist (memories.map Memory.id) := by
    have h1 := List.Sublist.map Memory.id (deduplicate_sublist sqrt
      cfg.deduplicateThreshold
      (decay now cfg.hotDays cfg.warmDays cfg.coldDays memories).1)
    rwa [decay_ids] at h1
  unfold consolidate
  cases summarizer with
  | none =>
    simp only []
    rw [archive_ids]
    exact hdd
  | some s =>
    simp only []
    by_cases hcs : (cluster sqrt cfg.clusterThreshold cfg.minClusterSize
        (deduplicate sqrt cfg.deduplicateThreshold
          (decay now cfg.hotDays cfg.warmDays cfg.coldDays
            memories).1).1).length > 0
    · rw [if_pos hcs, archive_ids]
      exact List.Sublist.trans
        (summarizeClusters_ids_sublist _ _ _ _) hdd
    · rw [if_neg hcs, archive_ids]
      exact hdd

lemma bestOf_mem (memories : List Memory) (g0 : ℕ) (rest : List ℕ) :
    bestOf memories g0 rest ∈ g0 :: rest := by
  obtain ⟨pre, post, heq, _, _⟩ := bestOf_spec memories g0 rest
  rw [heq]
  exact List.mem_append.mpr (Or.inr (List.mem_cons_self _ _))

lemma findIdx?_ids_congr (l l2 : List Memory) (X : String)
    (h : l.map Memory.id = l2.map Memory.id) :
    ∀ i : ℕ, List.findIdx? (fun m => m.id = X) l i =
      List.findIdx? (fun m => m.id = X) l2 i := by
  induction l generalizing l2 with
  | nil =>
    rw [List.map_nil] at h
    have hl2 : l2 = [] := List.map_eq_nil_iff.mp h.symm
    subst hl2
    intro i
    rfl
  | cons a l ih =>
    cases l2 with
    | nil => simp at h
    | cons b l2 =>
      simp only [List.map_cons, List.cons.injEq] at h
      obtain ⟨hab, htail⟩ := h
      intro i
      rw [List.findIdx?_cons, List.findIdx?_cons, hab]
      by_cases hb : b.id = X
      · simp [hb]
      · simp [hb, ih l2 htail 0, ih l2 htail (i + 1)]

lemma findIdx_id_of_ids (l memories : List Memory)
    (hids : l.map Memory.id = memories.map Memory.id)
    (hnodup : (memories.map Memory.id).Nodup) (b : ℕ)
    (hb : b < memories.length) :
    l.findIdx? (fun m => m.id = (memories.getD b default).id) = some b :=
  (findIdx?_ids_congr l memories ((memories.getD b default).id) hids 0).trans
    (findIdx_id_nodup memories hnodup b hb)

lemma mapM_content_valid (memories : List Memory) (g : List ℕ)
    (texts : List String)
    (h : g.mapM (fun i => (memories.get? i).map Memory.content) =
      some texts) :
    ∀ i ∈ g, i < memories.length := by
  induction g generalizing texts with
  | nil =>
    intro i hi
    simp at hi
  | cons j g ih =>
    intro i hi
    rw [List.mapM_cons] at h
    cases hq : memories.get? j with
    | none => rw [hq] at h; simp at h
    | some m =>
      rw [hq] at h
      cases hg : g.mapM (fun i => (memories.get? i).map Memory.content) with
      | none => rw [hg] at h; simp at h
      | some ts =>
        rcases List.mem_cons.mp hi with rfl | hi
        · obtain ⟨hlt, _⟩ := List.get?_eq_some.mp hq
          exact hlt
        · exact ih ts hg i hi

lemma getD_set_of_ne {α : Type} (l : List α) (k p : ℕ) (a d : α)
    (h : p ≠ k) : (l.set k a).getD p d = l.getD p d := by
  rw [List.getD_eq_getElem?_getD, List.getD_eq_getElem?_getD,
    List.getElem?_set_ne (Ne.symm h)]

lemma getD_set_self {α : Type} (l : List α) (k : ℕ) (a d : α)
    (h : k < l.length) : (l.set k a).getD k d = a := by
  rw [List.getD_eq_getElem?_getD, List.getElem?_set_self h]
  rfl

lemma getD_id_of_ids (l memories : List Memory)
    (hids : l.map Memory.id = memories.map Memory.id) (k : ℕ)
    (hk : k < memories.length) :
    (l.getD k default).id = (memories.getD k default).id := by
  have hl : l.length = memories.length := by
    have := congrArg List.length hids
    simpa using this
  have hkl : k < l.length := by omega
  have h1 : (l.map Memory.id).getD k "" =
      (memories.map Memory.id).getD k "" := by rw [hids]
  rw [List.getD_eq_getElem _ _ (by rw [List.length_map]; exact hkl),
    List.getD_eq_getElem _ _ (by rw [List.length_map]; exact hk)] at h1
  rw [List.getD_eq_getElem _ _ hkl, List.getD_eq_getElem _ _ hk]
  simpa using h1

lemma id_inj_of_nodup (memories : List Memory)
    (hnodup : (memories.map Memory.id).Nodup) (j k : ℕ)
    (hj : j < memories.length) (hk : k < memories.length)
    (h : (memories.getD j default).id = (memories.getD k default).id) :
    j = k := by
  rw [List.getD_eq_getElem _ _ hj, List.getD_eq_getElem _ _ hk] at h
  have hjm : j < (memories.map Memory.id).length := by
    rw [List.length_map]; exact hj
  have hkm : k < (memories.map Memory.id).length := by
    rw [List.length_map]; exact hk
  have hmap : (memories.map Memory.id).get ⟨j, hjm⟩ =
      (memories.map Memory.id).get ⟨k, hkm⟩ := by
    simp only [List.get_eq_getElem, List.getElem_map]
    exact h
  rw [List.get_eq_getElem, List.get_eq_getElem] at hmap
  have hjk := (List.Nodup.getElem_inj_iff hnodup).mp hmap
  simpa using hjk

lemma sumStep_result_length (memories : List Memory)
    (summarizer : Summarizer) (nowISO : String) (st : SumState)
    (group : List ℕ) :
    (sumStep memories summarizer nowISO st group).result.length =
      st.result.length := by
  have h := congrArg List.length
    (sumStep_result_ids memories summarizer nowISO st group)
  simpa using h

lemma foldl_result_ids (memories : List Memory) (summarizer : Summarizer)
    (nowISO : String) (cs : List (List ℕ)) (st : SumState) :
    (cs.foldl (sumStep memories summarizer nowISO) st).result.map Memory.id =
      st.result.map Memory.id := by
  induction cs generalizing st with
  | nil => rfl
  | cons c cs ih => rw [List.foldl_cons, ih, sumStep_result_ids]

lemma foldl_result_length (memories : List Memory)
    (summarizer : Summarizer) (nowISO : String) (cs : List (List ℕ))
    (st : SumState) :
    (cs.foldl (sumStep memories summarizer nowISO) st).result.length =
      st.result.length := by
  have h := congrArg List.length
    (foldl_result_ids memories summarizer nowISO cs st)
  simpa using h

lemma sumStep_merge_general (memories : List Memory) (st : SumState)
    (g0 : ℕ) (rest : List ℕ) (summarizer : Summarizer) (nowISO : String)
    (summary : String)
    (hids : st.result.map Memory.id = memories.map Memory.id)
    (hnodup : (memories.map Memory.id).Nodup)
    (hv : ∀ i ∈ g0 :: rest, i < memories.length)
    (hsum : summarizer ((g0 :: rest).map
        (fun i => (memories.getD i default).content)) = some summary)
    (hlen : 10 ≤ summary.length) :
    sumStep memories summarizer nowISO st (g0 :: rest) =
      ⟨st.result.set (bestOf memories g0 rest)
          (mergeUpdate (st.result.getD (bestOf memories g0 rest) default)
            summary (maxImpOver memories g0 rest) (g0 :: rest).length nowISO),
        st.toRemove ∪ ((g0 :: rest).filter
          (fun i => i ≠ bestOf memories g0 rest)).toFinset,
        st.merged + ((g0 :: rest).length - 1)⟩ := by
  have hblt : bestOf memories g0 rest < memories.length :=
    hv _ (bestOf_mem memories g0 rest)
  unfold sumStep
  rw [mapM_content_eq _ _ hv]
  simp only [hsum]
  rw [if_neg (by omega)]
  simp only [findIdx_id_of_ids st.result memories hids hnodup _ hblt]

lemma sumStep_frame (memories : List Memory) (st : SumState) (c : List ℕ)
    (summarizer : Summarizer) (nowISO : String)
    (hids : st.result.map Memory.id = memories.map Memory.id)
    (hnodup : (memories.map Memory.id).Nodup) :
    (∀ p, p ∉ c →
      (sumStep memories summarizer nowISO st c).result.getD p default =
        st.result.getD p default) ∧
    (∀ p, p ∉ c →
      (p ∈ (sumStep memories summarizer nowISO st c).toRemove ↔
        p ∈ st.toRemove)) := by
  cases hm : c.mapM (fun i => (memories.get? i).map Memory.content) with
  | none =>
    have hst : sumStep memories summarizer nowISO st c = st := by
      unfold sumStep
      rw [hm]
    rw [hst]
    exact ⟨fun _ _ => rfl, fun _ _ => Iff.rfl⟩
  | some texts =>
    have hv : ∀ i ∈ c, i < memories.length :=
      mapM_content_valid memories c texts hm
    have htexts : texts = c.map (fun i => (memories.getD i default).content) := by
      have hme := mapM_content_eq memories c hv
      rw [hm] at hme
      exact Option.some.inj hme
    cases hs : summarizer texts with
    | none =>
      have hst := sumStep_of_failed memories c summarizer nowISO st hv
        (Or.inl (htexts ▸ hs))
      rw [hst]
      exact ⟨fun _ _ => rfl, fun _ _ => Iff.rfl⟩
    | some s =>
      by_cases hsl : s.length < 10
      · have hst := sumStep_of_failed memories c summarizer nowISO st hv
          (Or.inr ⟨s, htexts ▸ hs, hsl⟩)
        rw [hst]
        exact ⟨fun _ _ => rfl, fun _ _ => Iff.rfl⟩
      · cases c with
        | nil =>
          have hst : sumStep memories summarizer nowISO st [] = st := by
            unfold sumStep
            rw [hm]
            simp only [hs]
            rw [if_neg hsl]
          rw [hst]
          exact ⟨fun _ _ => rfl, fun _ _ => Iff.rfl⟩
        | cons c0 crest =>
          rw [sumStep_merge_general memories st c0 crest summarizer nowISO s
            hids hnodup hv (htexts ▸ hs) (by omega)]
          constructor
          · intro p hp
            exact getD_set_of_ne _ _ _ _ _
              (fun he => hp (he ▸ bestOf_mem memories c0 crest))
          · intro p hp
            simp only [Finset.mem_union]
            constructor
            · rintro (h | h)
              · exact h
              · exact absurd
                  (List.mem_of_mem_filter (List.mem_toFinset.mp h)) hp
            · exact Or.inl

lemma foldl_frame (memories : List Memory) (summarizer : Summarizer)
    (nowISO : String) (cs : List (List ℕ)) (st : SumState)
    (hids : st.result.map Memory.id = memories.map Memory.id)
    (hnodup : (memories.map Memory.id).Nodup)
    (p : ℕ) (hp : ∀ c ∈ cs, p ∉ c) :
    ((cs.foldl (sumStep memories summarizer nowISO) st).result.getD p
        default = st.result.getD p default) ∧
    ((p ∈ (cs.foldl (sumStep memories summarizer nowISO) st).toRemove) ↔
      p ∈ st.toRemove) := by
  induction cs generalizing st with
  | nil => exact ⟨rfl, Iff.rfl⟩
  | cons c cs ih =>
    have hframe := sumStep_frame memories st c summarizer nowISO hids hnodup
    have hids2 : (sumStep memories summarizer nowISO st c).result.map
        Memory.id = memories.map Memory.id := by
      rw [sumStep_result_ids]
      exact hids
    obtain ⟨h1, h2⟩ := ih (sumStep memories summarizer nowISO st c) hids2
      (fun c2 hc2 => hp c2 (List.mem_cons_of_mem _ hc2))
    rw [List.foldl_cons]
    exact ⟨h1.trans (hframe.1 p (hp c (List.mem_cons_self _ _))),
      h2.trans (hframe.2 p (hp c (List.mem_cons_self _ _)))⟩

lemma getD_mem_filterIdx {α : Type} [Inhabited α] (l : List α)
    (s : Finset ℕ) (p : ℕ) (hp : p < l.length) (hps : p ∉ s) :
    l.getD p default ∈ filterIdx l s := by
  unfold filterIdx
  have hlen : p < l.enum.length := by
    rw [List.enum_length]
    exact hp
  have he : (p, l.getD p default) ∈ l.enum := by
    have hg := List.getElem_enum l p hlen
    rw [List.getD_eq_getElem _ _ hp, ← hg]
    exact List.getElem_mem hlen
  refine List.mem_map.mpr ⟨(p, l.getD p default), ?_, rfl⟩
  rw [List.mem_filter]
  exact ⟨he, by simp [hps]⟩

lemma mem_filterIdx {α : Type} [Inhabited α] (l : List α) (s : Finset ℕ)
    (r : α) (hr : r ∈ filterIdx l s) :
    ∃ k, k < l.length ∧ k ∉ s ∧ l.getD k default = r := by
  unfold filterIdx at hr
  obtain ⟨q, hq, hsnd⟩ := List.mem_map.mp hr
  obtain ⟨hqe, hqf⟩ := List.mem_filter.mp hq
  obtain ⟨hk, hval⟩ := List.mem_enum hqe
  refine ⟨q.1, hk, by simpa using hqf, ?_⟩
  rw [List.getD_eq_getElem _ _ hk, ← hval]
  exact hsnd

lemma summarizeClusters_run_state (memories : List Memory) (g0 : ℕ)
    (rest : List ℕ) (pre post : List (List ℕ)) (summarizer : Summarizer)
    (nowISO : String) (summary : String) (stF : SumState)
    (hv : ∀ i ∈ g0 :: rest, i < memories.length)
    (hnodup : (memories.map Memory.id).Nodup)
    (hdisj : ∀ c ∈ pre ++ post, ∀ i ∈ c, i ∉ g0 :: rest)
    (hsum : summarizer ((g0 :: rest).map
        (fun i => (memories.getD i default).content)) = some summary)
    (hlen : 10 ≤ summary.length)
    (hstF : stF = (pre ++ (g0 :: rest) :: post).foldl
      (sumStep memories summarizer nowISO) ⟨memories, ∅, 0⟩) :
    stF.result.length = memories.length ∧
    stF.result.map Memory.id = memories.map Memory.id ∧
    stF.result.getD (bestOf memories g0 rest) default =
      mergeUpdate (memories.getD (bestOf memories g0 rest) default) summary
        (maxImpOver memories g0 rest) (g0 :: rest).length nowISO ∧
    bestOf memories g0 rest ∉ stF.toRemove ∧
    (∀ i ∈ g0 :: rest, i ≠ bestOf memories g0 rest → i ∈ stF.toRemove) := by
  subst hstF
  rw [List.foldl_append, List.foldl_cons]
  have hpre_disj : ∀ p ∈ g0 :: rest, ∀ c ∈ pre, p ∉ c := fun p hp c hc hpc =>
    hdisj c (List.mem_append.mpr (Or.inl hc)) p hpc hp
  have hpost_disj : ∀ p ∈ g0 :: rest, ∀ c ∈ post, p ∉ c :=
    fun p hp c hc hpc => hdisj c (List.mem_append.mpr (Or.inr hc)) p hpc hp
  have hbmem := bestOf_mem memories g0 rest
  have hblt : bestOf memories g0 rest < memories.length := hv _ hbmem
  have hids1 : (pre.foldl (sumStep memories summarizer nowISO)
      ⟨memories, ∅, 0⟩).result.map Memory.id = memories.map Memory.id :=
    foldl_result_ids memories summarizer nowISO pre ⟨memories, ∅, 0⟩
  have hlen1 : (pre.foldl (sumStep memories summarizer nowISO)
      ⟨memories, ∅, 0⟩).result.length = memories.length :=
    foldl_result_length memories summarizer nowISO pre ⟨memories, ∅, 0⟩
  have hframe1 : ∀ p ∈ g0 :: rest,
      ((pre.foldl (sumStep memories summarizer nowISO)
          ⟨memories, ∅, 0⟩).result.getD p default =
        memories.getD p default) ∧
      (p ∉ (pre.foldl (sumStep memories summarizer nowISO)
          ⟨memories, ∅, 0⟩).toRemove) := by
    intro p hp
    have h := foldl_frame memories summarizer nowISO pre ⟨memories, ∅, 0⟩
      rfl hnodup p (hpre_disj p hp)
    refine ⟨h.1, fun hmem => ?_⟩
    have := h.2.mp hmem
    simp at this
  have hmerge := sumStep_merge_general memories
    (pre.foldl (sumStep memories summarizer nowISO) ⟨memories, ∅, 0⟩)
    g0 rest summarizer nowISO summary hids1 hnodup hv hsum hlen
  have hids2 : (sumStep memories summarizer nowISO
      (pre.foldl (sumStep memories summarizer nowISO) ⟨memories, ∅, 0⟩)
      (g0 :: rest)).result.map Memory.id = memories.map Memory.id := by
    rw [sumStep_result_ids]
    exact hids1
  have hlen2 : (sumStep memories summarizer nowISO
      (pre.foldl (sumStep memories summarizer nowISO) ⟨memories, ∅, 0⟩)
      (g0 :: rest)).result.length = memories.length := by
    rw [sumStep_result_length]
    exact hlen1
  have hframeP : ∀ p ∈ g0 :: rest,
      ((post.foldl (sumStep memories summarizer nowISO)
          (sumStep memories summarizer nowISO
            (pre.foldl (sumStep memories summarizer nowISO) ⟨memories, ∅, 0⟩)
            (g0 :: rest))).result.getD p default =
        (sumStep memories summarizer nowISO
          (pre.foldl (sumStep memories summarizer nowISO) ⟨memories, ∅, 0⟩)
          (g0 :: rest)).result.getD p default) ∧
      ((p ∈ (post.foldl (sumStep memories summarizer nowISO)
          (sumStep memories summarizer nowISO
            (pre.foldl (sumStep memories summarizer nowISO) ⟨memories, ∅, 0⟩)
            (g0 :: rest))).toRemove) ↔
        p ∈ (sumStep memories summarizer nowISO
          (pre.foldl (sumStep memories summarizer nowISO) ⟨memories, ∅, 0⟩)
          (g0 :: rest)).toRemove) :=
    fun p hp => foldl_frame memories summarizer nowISO post _ hids2 hnodup p
      (hpost_disj p hp)
  have hst2res : (sumStep memories summarizer nowISO
      (pre.foldl (sumStep memories summarizer nowISO) ⟨memories, ∅, 0⟩)
      (g0 :: rest)).result.getD (bestOf memories g0 rest) default =
      mergeUpdate (memories.getD (bestOf memories g0 rest) default) summary
        (maxImpOver memories g0 rest) (g0 :: rest).length nowISO := by
    rw [hmerge]
    dsimp only
    rw [getD_set_self _ _ _ _ (by rw [hlen1]; exact hblt),
      (hframe1 _ hbmem).1]
  have hbest2 : bestOf memories g0 rest ∉ (sumStep memories summarizer nowISO
      (pre.foldl (sumStep memories summarizer nowISO) ⟨memories, ∅, 0⟩)
      (g0 :: rest)).toRemove := by
    rw [hmerge]
    dsimp only
    rw [Finset.mem_union]
    rintro (h | h)
    · exact (hframe1 _ hbmem).2 h
    · have := List.mem_filter.mp (List.mem_toFinset.mp h)
      simp at this
  have hmem2 : ∀ i ∈ g0 :: rest, i ≠ bestOf memories g0 rest →
      i ∈ (sumStep memories summarizer nowISO
        (pre.foldl (sumStep memories summarizer nowISO) ⟨memories, ∅, 0⟩)
        (g0 :: rest)).toRemove := by
    intro i hi hib
    rw [hmerge]
    dsimp only
    exact Finset.mem_union_right _
      (List.mem_toFinset.mpr (List.mem_filter.mpr ⟨hi, by simp [hib]⟩))
  refine ⟨?_, ?_, ?_, ?_, ?_⟩
  · rw [foldl_result_length]
    exact hlen2
  · rw [foldl_result_ids]
    exact hids2
  · rw [(hframeP _ hbmem).1]
    exact hst2res
  · intro h
    exact hbest2 ((hframeP _ hbmem).2.mp h)
  · intro i hi hib
    exact (hframeP i hi).2.mpr (hmem2 i hi hib)

/-- C3: in any merge-coordinator run whose clusters list contains a cluster
`g0 :: rest` that merges successfully (other clusters disjoint from it, as
the Cluster Builder guarantees, and record ids unique): the representative
is the first member attaining the maximal score
`importance + accessCount*0.1`; in the run's output the representative's
record carries the summary as content, the tag `consolidated` unioned into
its tag set, the maximal importance across the cluster, and
`consolidatedFrom = group size` in its metadata; every other member of the
cluster is removed from the output; and the merged count is the sum over
clusters of the per-cluster contribution, `size - 1` for merged clusters. -/
theorem summarizeClusters_merge_correct (memories : List Memory)
    (g0 : ℕ) (rest : List ℕ) (pre post : List (List ℕ))
    (summarizer : Summarizer) (nowISO : String) (summary : String)
    (hv : ∀ i ∈ g0 :: rest, i < memories.length)
    (hnodup : (memories.map Memory.id).Nodup)
    (hdisj : ∀ c ∈ pre ++ post, ∀ i ∈ c, i ∉ g0 :: rest)
    (hsum : summarizer ((g0 :: rest).map
        (fun i => (memories.getD i default).content)) = some summary)
    (hlen : 10 ≤ summary.length) :
    (∃ pre2 post2, g0 :: rest = pre2 ++ bestOf memories g0 rest :: post2 ∧
      (∀ x ∈ pre2, memScore (memories.getD x default) <
        memScore (memories.getD (bestOf memories g0 rest) default)) ∧
      (∀ x ∈ post2, memScore (memories.getD x default) ≤
        memScore (memories.getD (bestOf memories g0 rest) default))) ∧
    ((memories.getD (bestOf memories g0 rest) default).id ∈
      (summarizeClusters memories (pre ++ (g0 :: rest) :: post) summarizer
        nowISO).1.map Memory.id) ∧
    (∀ r ∈ (summarizeClusters memories (pre ++ (g0 :: rest) :: post)
        summarizer nowISO).1,
      r.id = (memories.getD (bestOf memories g0 rest) default).id →
      r.content = summary ∧
      ("consolidated" ∈ r.tags ∧
        ∀ t, t ∈ r.tags ↔
          (t ∈ (memories.getD (bestOf memories g0 rest) default).tags ∨
            t = "consolidated")) ∧
      r.importance = maxImpOver memories g0 rest ∧
      getMeta r.metadata "consolidatedFrom" =
        some (.num (g0 :: rest).length)) ∧
    ((∀ i ∈ g0 :: rest, (memories.getD i default).importance ≤
        maxImpOver memories g0 rest) ∧
      ∃ i ∈ g0 :: rest,
        maxImpOver memories g0 rest = (memories.getD i default).importance) ∧
    (∀ i ∈ g0 :: rest, i ≠ bestOf memories g0 rest →
      (memories.getD i default).id ∉
        (summarizeClusters memories (pre ++ (g0 :: rest) :: post) summarizer
          nowISO).1.map Memory.id) ∧
    ((summarizeClusters memories (pre ++ (g0 :: rest) :: post) summarizer
        nowISO).2 =
      ((pre ++ (g0 :: rest) :: post).map
        (mergeContrib memories summarizer)).sum ∧
      mergeContrib memories summarizer (g0 :: rest) =
        (g0 :: rest).length - 1) := by
  obtain ⟨hlenF, hidsF, hbestrec, hbestnot, hremove⟩ :=
    summarizeClusters_run_state memories g0 rest pre post summarizer nowISO
      summary _ hv hnodup hdisj hsum hlen rfl
  have hbmem := bestOf_mem memories g0 rest
  have hblt : bestOf memories g0 rest < memories.length := hv _ hbmem
  refine ⟨bestOf_spec memories g0 rest, ?_, ?_,
    maxImpOver_spec memories g0 rest, ?_,
    summarizeClusters_merged memories _ summarizer nowISO,
    mergeContrib_of_success memories summarizer g0 rest summary hv hsum hlen⟩
  · -- the representative's id survives into the output
    have hmem := getD_mem_filterIdx
      ((pre ++ (g0 :: rest) :: post).foldl
        (sumStep memories summarizer nowISO) ⟨memories, ∅, 0⟩).result
      ((pre ++ (g0 :: rest) :: post).foldl
        (sumStep memories summarizer nowISO) ⟨memories, ∅, 0⟩).toRemove
      (bestOf memories g0 rest) (by rw [hlenF]; exact hblt) hbestnot
    rw [hbestrec] at hmem
    exact List.mem_map.mpr ⟨_, hmem, rfl⟩
  · -- any output record carrying the representative's id is the update
    intro r hr hid
    obtain ⟨k, hk, hknot, hkval⟩ := mem_filterIdx _ _ r hr
    have hkm : k < memories.length := by rw [← hlenF]; exact hk
    have hkb : k = bestOf memories g0 rest := by
      apply id_inj_of_nodup memories hnodup k _ hkm hblt
      rw [← getD_id_of_ids _ memories hidsF k hkm, hkval, hid]
    rw [hkb] at hkval
    rw [hbestrec] at hkval
    rw [← hkval]
    refine ⟨rfl, ⟨?_, ?_⟩, rfl, ?_⟩
    · exact (mem_dedupFirst _ _).mpr (by simp)
    · intro t
      refine (mem_dedupFirst _ t).trans ?_
      simp
    · show getMeta (setMeta (setMeta _ "consolidatedFrom" _)
        "consolidatedAt" _) "consolidatedFrom" = _
      rw [getMeta_setMeta_ne _ _ _ _ (by decide), getMeta_setMeta_same]
  · -- every other member of the cluster is gone from the output
    intro i hi hib hcontra
    obtain ⟨r, hr, hrid⟩ := List.mem_map.mp hcontra
    obtain ⟨k, hk, hknot, hkval⟩ := mem_filterIdx _ _ r hr
    have hkm : k < memories.length := by rw [← hlenF]; exact hk
    have him : i < memories.length := hv i hi
    have hki : k = i := by
      apply id_inj_of_nodup memories hnodup k i hkm him
      rw [← getD_id_of_ids _ memories hidsF k hkm, hkval, hrid]
    rw [hki] at hknot
    exact hknot (hremove i hi hib)

/-- C3 witness: the merge hypotheses discharged on a concrete run whose
clusters list holds the merging cluster `[0, 1]` followed by a second,
disjoint cluster `[2]`. -/
theorem summarizeClusters_merge_correct_witness :
    (demoMems3.getD 1 default).id ∉
      (summarizeClusters demoMems3 [[0, 1], [2]]
        (fun _ => some "a consolidated summary") "T").1.map Memory.id :=
  (summarizeClusters_merge_correct demoMems3 0 [1] [] [[2]]
    (fun _ => some "a consolidated summary") "T" "a consolidated summary"
    (by decide) (by decide) (by decide) rfl (by decide)).2.2.2.2.1 1
    (by decide) (by decide)

end EngramTraceLite
